import Mathlib

/-!
Shallow embedding of the core of `goleft indexcov` (src/indexcov/indexcov.go)
and verification of the specification claims about it.

Modelling conventions:
* Go `float32`/`float64` arithmetic is idealised as exact rational (ℚ)
  arithmetic; all constants involved (0.85, 1.15, 0.15, 2/3, 65535/6, …)
  are exactly representable and the claims are settled at inputs where the
  rational and floating computations agree.
* Go `int`/`int64` become ℤ (or ℕ for lengths/indices), with explicit
  truncation where a float is converted to an integer.
* Go slice indexing that can panic is modelled with `Option`: `none` is a
  run-time panic.
-/

/-- MaxCN is the maximum normalized depth value (src line 38). -/
def MaxCN : ℚ := 6

/-- Ploidy is the expected ploidy of the samples, default 2 (src line 27). -/
def Ploidy : ℤ := 2

/-- Modelled from the spec: the tile width T = 16384 base pairs.  The constant
`TileWidth` is referenced by `NormalizedDepth` (src line 91) but its defining
declaration lives outside the provided source tree; the spec fixes T = 16384. -/
def TileWidth : ℕ := 16384

/-- Number of histogram slots (src line 108). -/
def slots : ℕ := 70

/-- Histogram midpoint scale 2/3 (src line 112). -/
def slotsMid : ℚ := 2 / 3

/-- Go's conversion from a floating value to an integer truncates toward
zero.  `truncQ` is that conversion on the rational idealisation. -/
def truncQ (q : ℚ) : ℤ := if q < 0 then ⌈q⌉ else ⌊q⌋

/-- Consecutive differences of one reference tile vector: the inner loop of
`Index.init` (src lines 61-66).  A reference with fewer than two tile entries
contributes nothing. -/
def diffsOf (r : List ℤ) : List ℤ :=
  if r.length < 2 then [] else List.zipWith (fun a b => a - b) r.tail r

/-- All tile-size differences collected by `Index.init` (src lines 59-67):
the loop runs over every reference except the last. -/
def collectSizes (refs : List (List ℤ)) : List ℤ :=
  (refs.dropLast.map diffsOf).flatten

/-- The median tile size computed by `Index.init` (src lines 69-79).
`none` models the index-out-of-range panic the Go code hits when the
(remaining) sizes slice is empty. -/
def medianSizePerTile (refs : List (List ℤ)) : Option ℤ :=
  let sizes := List.insertionSort (· ≤ ·) (collectSizes refs)
  if sizes.length = 0 then none
  else
    let m := sizes.getD (sizes.length / 2) 0
    if m = 0 then
      let rest := (sizes.drop (sizes.length / 2)).dropWhile (fun s => decide (s = 0))
      if rest.length = 0 then none else some (rest.getD (rest.length / 2) 0)
    else some m

/-- `Index.NormalizedDepth` (src lines 84-106), with the already-initialised
median `M` passed explicitly.  `stop` is the Go parameter `end`. -/
def normalizedDepth (M : ℚ) (ref : List ℤ) (start stop : ℕ) : List ℚ :=
  let si := start / TileWidth
  let ei0 := stop / TileWidth
  let ei := if stop = 0 ∨ ref.length ≤ ei0 then ref.length - 1 else ei0
  if ei ≤ si then []
  else
    (List.range (ei - si)).map (fun i =>
      let v := ((ref.getD (si + i + 1) 0 - ref.getD (si + i) 0 : ℤ) : ℚ) / M
      if MaxCN < v then MaxCN else v)

/-- Restatement of the claim: `normalized(ref, start, end)` with
s = ⌊start/T⌋, e = min(⌊end/T⌋, len(ref) − 1), empty when e ≤ s, and
otherwise the vector of consecutive differences over M clamped at C_max. -/
def normalizedSpecSide (M : ℚ) (ref : List ℤ) (start stop : ℕ) : List ℚ :=
  let s := start / TileWidth
  let e := min (stop / TileWidth) (ref.length - 1)
  if e ≤ s then []
  else
    (List.range (e - s)).map (fun i =>
      min MaxCN (((ref.getD (s + i + 1) 0 - ref.getD (s + i) 0 : ℤ) : ℚ) / M))

/-- `tint` (src lines 114-119): convert to int, clamping at slots - 1. -/
def tint (f : ℚ) : ℤ :=
  let v := truncQ f
  if v < 70 then v else 69

/-- The histogram slot chosen by `CountsAtDepth` (src line 127):
`tint(d*(slots*slotsMid)+0.5)`. -/
def slotFor (d : ℚ) : ℤ := tint (d * (70 * slotsMid) + 1 / 2)

/-- Increment a counter slot; `none` is the out-of-range slice-index panic. -/
def incrAt (counts : List ℕ) (i : ℤ) : Option (List ℕ) :=
  if 0 ≤ i ∧ i.toNat < counts.length then
    some (counts.set i.toNat (counts.getD i.toNat 0 + 1))
  else none

/-- The loop of `CountsAtDepth` (src lines 126-128). -/
def countsLoop : List ℚ → List ℕ → Option (List ℕ)
  | [], counts => some counts
  | d :: ds, counts => (incrAt counts (slotFor d)).bind (fun c => countsLoop ds c)

/-- `CountsAtDepth` (src lines 122-129); `none` models the explicit panic on
a counts slice whose length is not `slots`, or an out-of-range slot. -/
def countsAtDepth (depths : List ℚ) (counts : List ℕ) : Option (List ℕ) :=
  if counts.length ≠ slots then none else countsLoop depths counts

/-- The reverse-cumulative totals of `CountsROC` (src lines 134-138):
`totals[i] = totals[i+1] + counts[i]` with `totals[last] = counts[last]`. -/
def totalsOf : List ℕ → List ℕ
  | [] => []
  | c :: rest => (c + (totalsOf rest).headD 0) :: totalsOf rest

/-- `CountsROC` (src lines 133-145) on the rational idealisation. -/
def countsROC (counts : List ℕ) : List ℚ :=
  let totals := totalsOf counts
  let mx : ℚ := (totals.headD 0 : ℕ)
  totals.map (fun t : ℕ => (t : ℚ) / mx)

/-- Division producing `none` when the denominator is zero: in the float
code a zero denominator makes `0/0 = NaN`, i.e. no valid ratio. -/
def divOpt (a b : ℚ) : Option ℚ := if b = 0 then none else some (a / b)

/-- `CountsROC` again, with the unguarded division made explicit: each entry
is `divOpt totals[i] totals[0]` (src line 142 divides by `max` with no zero
guard). -/
def countsROCchecked (counts : List ℕ) : List (Option ℚ) :=
  let totals := totalsOf counts
  let mx : ℚ := (totals.headD 0 : ℕ)
  totals.map (fun t : ℕ => divOpt (t : ℚ) mx)

/-- The per-sample body of `GetCN` (src lines 512-527): drop zeros, sort,
take `ploidy * tmp[len(tmp)/2]`, or -1 when nothing is left. -/
def getCN1 (d : List ℚ) : ℚ :=
  let tmp := d.filter (fun dp => decide (dp ≠ 0))
  if tmp.length = 0 then -1
  else (Ploidy : ℚ) * (List.insertionSort (· ≤ ·) tmp).getD (tmp.length / 2) 0

/-- `GetCN` (src lines 507-529) over all samples. -/
def getCN (depths : List (List ℚ)) : List ℚ := depths.map getCN1

/-- The integer value the quantizing append in `run` converts to `uint8`
(src line 348): `uint8(65535/MaxCN*depths[k][i]+0.5)`. -/
def pca8Entry (d : ℚ) : ℤ := truncQ (65535 / MaxCN * d + 1 / 2)

/-- Restatement of the claim: `q = round(255 * d / C_max)` saturated to
[0, 255]. -/
def quantSpec (d : ℚ) : ℤ := min 255 (max 0 (round (255 * d / MaxCN)))

/-- The sex value written by `writeIndex` (src line 453):
`int(0.5 + CN)`, i.e. truncation toward zero of CN + 0.5. -/
def inferredSex (cn : ℚ) : ℤ := truncQ (1 / 2 + cn)

/-- The four QC bins of `counter` (src lines 587-596); `inn` is the Go field
`in`. -/
structure Counter where
  out : ℤ
  low : ℤ
  hi : ℤ
  inn : ℤ
deriving DecidableEq

/-- The loop of `counter.count` (src lines 600-612). -/
def countLoop : Counter → List ℚ → Counter
  | c, [] => c
  | c, d :: ds =>
    if d < 0.85 ∨ 1.15 < d then
      if 1.15 < d then countLoop { c with out := c.out + 1, hi := c.hi + 1 } ds
      else if d < 0.15 then countLoop { c with out := c.out + 1, low := c.low + 1 } ds
      else countLoop { c with out := c.out + 1 } ds
    else countLoop { c with inn := c.inn + 1 } ds

/-- `counter.count` (src lines 599-615): run the loop, then add `n - k` to
both `out` and `low` for the padded tail. -/
def counterCount (c : Counter) (depths : List ℚ) (n : ℤ) : Counter :=
  let c2 := countLoop c depths
  { c2 with
    out := c2.out + (n - depths.length),
    low := c2.low + (n - depths.length) }

/-! ### C1: quantized matrix entries -/

/-- C1: the claim says each quantized matrix entry is round(255·d/C_max)
saturated to [0, 255].  The code (src line 348) instead computes
`uint8(65535/MaxCN*d+0.5)`: at normalized depth d = 1 the value before the
`uint8` conversion is 10923, far outside [0, 255], while the claimed value is
round(255·1/6) = 43.  The `uint8` destination and the spec show 255 was
intended; 65535 is the `uint16` scale. -/
theorem pca8Entry_overflow :
    pca8Entry 1 = 10923 ∧ quantSpec 1 = 43 ∧ 255 < pca8Entry 1 := by
  refine ⟨?_, ?_, ?_⟩
  · norm_num [pca8Entry, truncQ, MaxCN]
  · rw [quantSpec, round_eq]; norm_num [MaxCN]
  · norm_num [pca8Entry, truncQ, MaxCN]

/-! ### C6: histogram slot formula -/

/-- C6 counterexample: the claim's own formula clamp(⌊d·(70·2/3)+0.5⌋,0,69)
gives ⌊46.67 + 0.5⌋ = 47 at depth 1.0, and so does the code; the claim's
example value 46 is wrong. -/
theorem slotFor_claim_counterexample : slotFor 1 = 47 ∧ (47 : ℤ) ≠ 46 := by
  refine ⟨?_, by decide⟩
  norm_num [slotFor, tint, truncQ, slotsMid]

/-- C6 amended: for every non-negative depth d, histogramming adds one to
slot clamp(⌊d·(70·2/3)+0.5⌋, 0, 69); depth 1.0 goes to slot 47, depth 0.0 to
slot 0, and any depth ≥ 417/280 (≈ 1.489) to slot 69. -/
theorem slotFor_spec (d : ℚ) (h : 0 ≤ d) :
    slotFor d = min (max (⌊d * (70 * slotsMid) + 1 / 2⌋) 0) 69 ∧
    slotFor 0 = 0 ∧ slotFor 1 = 47 ∧ (417 / 280 ≤ d → slotFor d = 69) := by
  have hmid : (0 : ℚ) ≤ 70 * slotsMid := by norm_num [slotsMid]
  have hf : (0 : ℚ) ≤ d * (70 * slotsMid) + 1 / 2 := by
    have := mul_nonneg h hmid; linarith
  have hv : 0 ≤ ⌊d * (70 * slotsMid) + 1 / 2⌋ := Int.floor_nonneg.mpr hf
  refine ⟨?_, ?_, ?_, ?_⟩
  · simp only [slotFor, tint, truncQ, if_neg (not_lt.mpr hf), max_eq_left hv]
    by_cases hlt : ⌊d * (70 * slotsMid) + 1 / 2⌋ < 70
    · rw [if_pos hlt, min_eq_left (by omega)]
    · rw [if_neg hlt, min_eq_right (by omega)]
  · norm_num [slotFor, tint, truncQ, slotsMid]
  · norm_num [slotFor, tint, truncQ, slotsMid]
  · intro hd
    have h70 : (70 : ℚ) ≤ d * (70 * slotsMid) + 1 / 2 := by
      have : (417 / 280 : ℚ) * (70 * slotsMid) ≤ d * (70 * slotsMid) :=
        mul_le_mul_of_nonneg_right hd hmid
      have : (139 / 2 : ℚ) ≤ d * (70 * slotsMid) := by
        norm_num [slotsMid] at this ⊢; linarith
      linarith
    have : (70 : ℤ) ≤ ⌊d * (70 * slotsMid) + 1 / 2⌋ := Int.le_floor.mpr (by exact_mod_cast h70)
    simp only [slotFor, tint, truncQ, if_neg (not_lt.mpr hf), if_neg (not_lt.mpr this)]

/-- C6 witness: the amended theorem applied at d = 2. -/
theorem slotFor_spec_witness :
    slotFor 2 = min (max (⌊(2 : ℚ) * (70 * slotsMid) + 1 / 2⌋) 0) 69 ∧ slotFor 2 = 69 :=
  ⟨(slotFor_spec 2 (by norm_num)).1, (slotFor_spec 2 (by norm_num)).2.2.2 (by norm_num)⟩

/-! ### C8: pedigree sex column -/

/-- C8 counterexample: the code (src line 453) computes `int(0.5 + CN)`,
truncating toward zero; at the sentinel CN = −1 this yields 0, while the
claim (sex = round(CN), "including when that copy-number value is -1")
requires round(−1) = −1. -/
theorem inferredSex_claim_counterexample :
    inferredSex (-1) = 0 ∧ round (-1 : ℚ) = -1 ∧ (0 : ℤ) ≠ -1 := by
  refine ⟨?_, ?_, by decide⟩
  · norm_num [inferredSex, truncQ]
  · rw [round_eq]; norm_num

/-- C8 amended: the sex column equals truncation-toward-zero of CN + 0.5,
which agrees with round-to-nearest (half up) for every non-negative CN; the
sentinel CN = −1 produces sex 0, not −1. -/
theorem inferredSex_spec (cn : ℚ) (h : 0 ≤ cn) :
    inferredSex cn = round cn ∧ inferredSex (-1) = 0 := by
  constructor
  · show truncQ (1 / 2 + cn) = round cn
    unfold truncQ
    rw [if_neg (show ¬ (1 / 2 + cn < 0) by push_neg; linarith), round_eq, add_comm cn (1 / 2)]
  · norm_num [inferredSex, truncQ]

/-- C8 witness: the amended theorem applied at CN = 2.04. -/
theorem inferredSex_spec_witness :
    inferredSex 2.04 = round (2.04 : ℚ) ∧ inferredSex (-1) = 0 :=
  inferredSex_spec 2.04 (by norm_num)

/-! ### C3: bin counter -/

/-- Field-by-field characterisation of the loop of `counter.count`. -/
theorem countLoop_fields (ds : List ℚ) (c : Counter) :
    (countLoop c ds).inn = c.inn + ds.countP (fun d => decide (0.85 ≤ d ∧ d ≤ 1.15)) ∧
    (countLoop c ds).hi = c.hi + ds.countP (fun d => decide (1.15 < d)) ∧
    (countLoop c ds).low = c.low + ds.countP (fun d => decide (d < 0.15)) ∧
    (countLoop c ds).out = c.out + ds.countP (fun d => decide (d < 0.85 ∨ 1.15 < d)) := by
  induction ds generalizing c with
  | nil => simp [countLoop]
  | cons d ds ih =>
    simp only [countLoop]
    by_cases h1 : d < 0.85 ∨ 1.15 < d
    · rw [if_pos h1]
      by_cases h2 : 1.15 < d
      · rw [if_pos h2]
        obtain ⟨i1, i2, i3, i4⟩ := ih { c with out := c.out + 1, hi := c.hi + 1 }
        rw [List.countP_cons_of_neg (a := d) (fun x => decide (0.85 ≤ x ∧ x ≤ 1.15)) ds
              (by simp only [decide_eq_true_eq]; rintro ⟨-, hb⟩; linarith),
            List.countP_cons_of_pos (a := d) (fun x => decide (1.15 < x)) ds
              (by simp only [decide_eq_true_eq]; exact h2),
            List.countP_cons_of_neg (a := d) (fun x => decide (x < 0.15)) ds
              (by simp only [decide_eq_true_eq]; intro hb; linarith),
            List.countP_cons_of_pos (a := d) (fun x => decide (x < 0.85 ∨ 1.15 < x)) ds
              (by simp only [decide_eq_true_eq]; exact h1)]
        refine ⟨?_, ?_, ?_, ?_⟩ <;> simp [i1, i2, i3, i4] <;> push_cast <;> ring
      · rw [if_neg h2]
        have h3 : d < 0.85 := by
          rcases h1 with h | h
          · exact h
          · exact absurd h h2
        by_cases h4 : d < 0.15
        · rw [if_pos h4]
          obtain ⟨i1, i2, i3, i4⟩ := ih { c with out := c.out + 1, low := c.low + 1 }
          rw [List.countP_cons_of_neg (a := d) (fun x => decide (0.85 ≤ x ∧ x ≤ 1.15)) ds
                (by simp only [decide_eq_true_eq]; rintro ⟨ha, -⟩; linarith),
              List.countP_cons_of_neg (a := d) (fun x => decide (1.15 < x)) ds
                (by simp only [decide_eq_true_eq]; exact h2),
              List.countP_cons_of_pos (a := d) (fun x => decide (x < 0.15)) ds
                (by simp only [decide_eq_true_eq]; exact h4),
              List.countP_cons_of_pos (a := d) (fun x => decide (x < 0.85 ∨ 1.15 < x)) ds
                (by simp only [decide_eq_true_eq]; exact h1)]
          refine ⟨?_, ?_, ?_, ?_⟩ <;> simp [i1, i2, i3, i4] <;> push_cast <;> ring
        · rw [if_neg h4]
          obtain ⟨i1, i2, i3, i4⟩ := ih { c with out := c.out + 1 }
          rw [List.countP_cons_of_neg (a := d) (fun x => decide (0.85 ≤ x ∧ x ≤ 1.15)) ds
                (by simp only [decide_eq_true_eq]; rintro ⟨ha, -⟩; linarith),
              List.countP_cons_of_neg (a := d) (fun x => decide (1.15 < x)) ds
                (by simp only [decide_eq_true_eq]; exact h2),
              List.countP_cons_of_neg (a := d) (fun x => decide (x < 0.15)) ds
                (by simp only [decide_eq_true_eq]; exact h4),
              List.countP_cons_of_pos (a := d) (fun x => decide (x < 0.85 ∨ 1.15 < x)) ds
                (by simp only [decide_eq_true_eq]; exact h1)]
          refine ⟨?_, ?_, ?_, ?_⟩ <;> simp [i1, i2, i3, i4] <;> push_cast <;> ring
    · rw [if_neg h1]
      push_neg at h1
      obtain ⟨ha, hb⟩ := h1
      obtain ⟨i1, i2, i3, i4⟩ := ih { c with inn := c.inn + 1 }
      rw [List.countP_cons_of_pos (a := d) (fun x => decide (0.85 ≤ x ∧ x ≤ 1.15)) ds
            (by simp only [decide_eq_true_eq]; exact ⟨ha, hb⟩),
          List.countP_cons_of_neg (a := d) (fun x => decide (1.15 < x)) ds
            (by simp only [decide_eq_true_eq]; intro hc; linarith),
          List.countP_cons_of_neg (a := d) (fun x => decide (x < 0.15)) ds
            (by simp only [decide_eq_true_eq]; intro hc; linarith),
          List.countP_cons_of_neg (a := d) (fun x => decide (x < 0.85 ∨ 1.15 < x)) ds
            (by simp only [decide_eq_true_eq]; rintro (hc | hc) <;> linarith)]
      refine ⟨?_, ?_, ?_, ?_⟩ <;> simp [i1, i2, i3, i4] <;> push_cast <;> ring

/-- C3: starting from the zero counter, `in` counts exactly the observed
depths in the closed interval [0.85, 1.15], `hi` exactly those > 1.15, `low`
those < 0.15 plus the n − k padding, `out` those outside [0.85, 1.15] plus
the padding (and `hi` gets no padding); depths [1.0, 0.9, 2.0] with n = 5
yield out = 3, low = 2, hi = 1, in = 2. -/
theorem counterCount_spec (depths : List ℚ) (n : ℤ) (h : (depths.length : ℤ) ≤ n) :
    (counterCount ⟨0, 0, 0, 0⟩ depths n).inn
        = depths.countP (fun d => decide (0.85 ≤ d ∧ d ≤ 1.15)) ∧
    (counterCount ⟨0, 0, 0, 0⟩ depths n).hi
        = depths.countP (fun d => decide (1.15 < d)) ∧
    (counterCount ⟨0, 0, 0, 0⟩ depths n).low
        = depths.countP (fun d => decide (d < 0.15)) + (n - depths.length) ∧
    (counterCount ⟨0, 0, 0, 0⟩ depths n).out
        = depths.countP (fun d => decide (d < 0.85 ∨ 1.15 < d)) + (n - depths.length) ∧
    counterCount ⟨0, 0, 0, 0⟩ [1, 0.9, 2] 5 = ⟨3, 2, 1, 2⟩ := by
  obtain ⟨i1, i2, i3, i4⟩ := countLoop_fields depths ⟨0, 0, 0, 0⟩
  refine ⟨?_, ?_, ?_, ?_, ?_⟩
  · simpa [counterCount] using i1
  · simpa [counterCount] using i2
  · simp [counterCount, i3]
  · simp [counterCount, i4]
  · norm_num [counterCount, countLoop]

/-- C3 witness: the characterisation applied at depths [1.0, 0.9, 2.0],
n = 5. -/
theorem counterCount_spec_witness :
    (counterCount ⟨0, 0, 0, 0⟩ [1, 0.9, 2] 5).inn
        = ([1, 0.9, 2] : List ℚ).countP (fun d => decide (0.85 ≤ d ∧ d ≤ 1.15)) ∧
    (counterCount ⟨0, 0, 0, 0⟩ [1, 0.9, 2] 5).hi
        = ([1, 0.9, 2] : List ℚ).countP (fun d => decide (1.15 < d)) ∧
    (counterCount ⟨0, 0, 0, 0⟩ [1, 0.9, 2] 5).low
        = ([1, 0.9, 2] : List ℚ).countP (fun d => decide (d < 0.15))
            + (5 - ([1, 0.9, 2] : List ℚ).length) ∧
    (counterCount ⟨0, 0, 0, 0⟩ [1, 0.9, 2] 5).out
        = ([1, 0.9, 2] : List ℚ).countP (fun d => decide (d < 0.85 ∨ 1.15 < d))
            + (5 - ([1, 0.9, 2] : List ℚ).length) ∧
    counterCount ⟨0, 0, 0, 0⟩ [1, 0.9, 2] 5 = ⟨3, 2, 1, 2⟩ :=
  counterCount_spec [1, 0.9, 2] 5 (by norm_num)

/-! ### C4: copy-number estimator -/

/-- C4: for every per-sample depth vector, the zero entries are discarded and
the result is Ploidy times the element at index ⌊n·0.5⌋ of the ascending sort
of the filtered vector (`s` here is any sorted permutation of the filtered
vector, which pins it down uniquely); an empty filtered vector gives the
sentinel −1; input [1.0, 0.0, 0.0, 0.95, 1.05, 1.02] yields 2.04. -/
theorem getCN_spec (d : List ℚ) (s : List ℚ)
    (hperm : s.Perm (d.filter (fun x => decide (x ≠ 0))))
    (hsort : s.Sorted (· ≤ ·)) :
    (s = [] → getCN1 d = -1) ∧
    (s ≠ [] → getCN1 d = (Ploidy : ℚ) * s.getD (s.length / 2) 0) ∧
    getCN [[1, 0, 0, 0.95, 1.05, 1.02]] = [2.04] := by
  have hsi : List.insertionSort (· ≤ ·) (d.filter (fun x => decide (x ≠ 0))) = s :=
    List.eq_of_perm_of_sorted ((List.perm_insertionSort _ _).trans hperm.symm)
      (List.sorted_insertionSort _ _) hsort
  have hlen : s.length = (d.filter (fun x => decide (x ≠ 0))).length := hperm.length_eq
  refine ⟨?_, ?_, ?_⟩
  · intro hse
    rw [hse] at hperm
    have hfe : d.filter (fun x => decide (x ≠ 0)) = [] := (hperm.symm).eq_nil
    simp only [getCN1, hfe, List.length_nil]
    norm_num
  · intro hne
    have hfne : ¬ (d.filter (fun x => decide (x ≠ 0))).length = 0 := by
      rw [← hlen]
      simpa [List.length_eq_zero] using hne
    simp only [getCN1, if_neg hfne, hsi, hlen]
  · norm_num [getCN, getCN1, List.filter, List.insertionSort, List.orderedInsert, Ploidy,
      List.getD]

/-- C4 witness: the characterisation applied to the spec's example vector
with its sorted filtered form [0.95, 1.0, 1.02, 1.05]. -/
theorem getCN_spec_witness :
    getCN1 [1, 0, 0, 0.95, 1.05, 1.02] =
      (Ploidy : ℚ) *
        ([0.95, 1, 1.02, 1.05] : List ℚ).getD (([0.95, 1, 1.02, 1.05] : List ℚ).length / 2) 0 :=
  (getCN_spec [1, 0, 0, 0.95, 1.05, 1.02] [0.95, 1, 1.02, 1.05]
    (by
      rw [show List.filter (fun x => decide (x ≠ 0)) ([1, 0, 0, 0.95, 1.05, 1.02] : List ℚ)
            = [1, 0.95, 1.05, 1.02] from by norm_num [List.filter]]
      rw [← show List.insertionSort (· ≤ ·) ([1, 0.95, 1.05, 1.02] : List ℚ)
            = [0.95, 1, 1.02, 1.05] from by norm_num [List.insertionSort, List.orderedInsert]]
      exact List.perm_insertionSort _ _)
    (by norm_num [List.sorted_cons])).2.1 (by simp)

/-! ### C7 and C10: reverse-cumulative ROC -/

theorem totalsOf_length (l : List ℕ) : (totalsOf l).length = l.length := by
  induction l with
  | nil => rfl
  | cons c rest ih => simp [totalsOf, ih]

theorem totalsOf_headD (l : List ℕ) : (totalsOf l).headD 0 = l.sum := by
  induction l with
  | nil => rfl
  | cons c rest ih => simp only [totalsOf, List.headD_cons, ih, List.sum_cons]

theorem totalsOf_getD (l : List ℕ) (i : ℕ) : (totalsOf l).getD i 0 = (l.drop i).sum := by
  induction l generalizing i with
  | nil => simp [totalsOf]
  | cons c rest ih =>
    cases i with
    | zero =>
      simp only [totalsOf, List.getD_cons_zero, totalsOf_headD, List.drop_zero, List.sum_cons]
    | succ i => simpa [totalsOf] using ih i

theorem mem_totalsOf_le (l : List ℕ) : ∀ t ∈ totalsOf l, t ≤ l.sum := by
  induction l with
  | nil => simp [totalsOf]
  | cons c rest ih =>
    intro t ht
    rcases List.mem_cons.mp ht with h | h
    · rw [h, totalsOf_headD, List.sum_cons]
    · calc t ≤ rest.sum := ih t h
        _ ≤ (c :: rest).sum := by simp

/-- C7: for a histogram from a non-empty depth vector (non-empty counts with
positive total), the ROC satisfies r_i = (Σ_{j ≥ i} h_j) / (Σ_j h_j), starts
at r_0 = 1, is monotonically non-increasing, and lies in [0, 1]; the
histogram [1,1,1,1] yields [4/4, 3/4, 2/4, 1/4]. -/
theorem countsROC_spec (counts : List ℕ) (h1 : counts ≠ []) (h2 : 0 < counts.sum) :
    (countsROC counts).length = counts.length ∧
    (∀ i, i < counts.length →
      (countsROC counts).getD i 0 = ((counts.drop i).sum : ℚ) / (counts.sum : ℚ)) ∧
    (countsROC counts).getD 0 0 = 1 ∧
    (∀ i, i + 1 < counts.length →
      (countsROC counts).getD (i + 1) 0 ≤ (countsROC counts).getD i 0) ∧
    (∀ x ∈ countsROC counts, 0 ≤ x ∧ x ≤ 1) ∧
    countsROC [1, 1, 1, 1] = [1, 3/4, 2/4, 1/4] := by
  have hsum : (0 : ℚ) < (counts.sum : ℚ) := by exact_mod_cast h2
  have hmx : (((totalsOf counts).headD 0 : ℕ) : ℚ) = (counts.sum : ℚ) := by
    exact_mod_cast totalsOf_headD counts
  have hrw : countsROC counts
      = (totalsOf counts).map (fun t : ℕ => (t : ℚ) / ((totalsOf counts).headD 0 : ℚ)) := by
    simp only [countsROC]
  have hgd : ∀ i, (countsROC counts).getD i 0
      = ((totalsOf counts).getD i 0 : ℚ) / (counts.sum : ℚ) := by
    intro i
    by_cases hi : i < (totalsOf counts).length
    · have hi2 : i < ((totalsOf counts).map
          (fun t : ℕ => (t : ℚ) / ((totalsOf counts).headD 0 : ℚ))).length := by
        simpa using hi
      rw [hrw, List.getD_eq_getElem _ _ hi2, List.getElem_map,
        List.getD_eq_getElem _ _ hi]
      simp only [hmx]
    · push_neg at hi
      rw [hrw, List.getD_eq_default, List.getD_eq_default _ _ hi]
      · simp
      · simpa using hi
  have hfor : ∀ i, (countsROC counts).getD i 0
      = ((counts.drop i).sum : ℚ) / (counts.sum : ℚ) := by
    intro i; rw [hgd i, totalsOf_getD]
  refine ⟨?_, fun i _ => hfor i, ?_, ?_, ?_, ?_⟩
  · rw [hrw, List.length_map, totalsOf_length]
  · rw [hfor 0]
    simp only [List.drop_zero]
    exact div_self (ne_of_gt hsum)
  · intro i _
    rw [hfor i, hfor (i + 1)]
    have hdrop : (counts.drop (i + 1)).sum ≤ (counts.drop i).sum := by
      have hd : counts.drop (i + 1) = (counts.drop i).drop 1 := by
        rw [List.drop_drop, Nat.add_comm]
      rw [hd]
      cases h : counts.drop i with
      | nil => simp
      | cons a t => simp
    have hc : ((counts.drop (i + 1)).sum : ℚ) ≤ ((counts.drop i).sum : ℚ) := by
      exact_mod_cast hdrop
    exact div_le_div_of_nonneg_right hc hsum.le
  · intro x hx
    rw [hrw] at hx
    obtain ⟨t, ht, rfl⟩ := List.mem_map.mp hx
    rw [hmx]
    refine ⟨div_nonneg (by positivity) hsum.le, ?_⟩
    rw [div_le_one hsum]
    exact_mod_cast mem_totalsOf_le counts t ht
  · norm_num [countsROC, totalsOf]

/-- C7 witness: the ROC invariants applied to the concrete histogram
[1, 1, 1, 1]. -/
theorem countsROC_spec_witness :
    (countsROC [1, 1, 1, 1]).length = 4 ∧
    (countsROC [1, 1, 1, 1]).getD 0 0 = 1 ∧
    countsROC [1, 1, 1, 1] = [1, 3/4, 2/4, 1/4] :=
  ⟨(countsROC_spec [1, 1, 1, 1] (by simp) (by simp)).1,
   (countsROC_spec [1, 1, 1, 1] (by simp) (by simp)).2.2.1,
   (countsROC_spec [1, 1, 1, 1] (by simp) (by simp)).2.2.2.2.2⟩

/-- C10: `CountsROC` divides by the grand total with no zero guard: on an
all-zero counts vector (as produced by histogramming an empty depth vector)
every entry is a division by zero (no valid ratio, `none`), so r_0 = 1
fails; with at least one positive count every entry is a valid ratio. -/
theorem countsROCchecked_allzero (n : ℕ) (hn : 0 < n) :
    (countsROCchecked (List.replicate n 0)).length = n ∧
    (∀ x ∈ countsROCchecked (List.replicate n 0), x = none) ∧
    (countsROCchecked (List.replicate n 0)).getD 0 none ≠ some 1 ∧
    countsAtDepth [] (List.replicate 70 0) = some (List.replicate 70 0) ∧
    (∀ counts : List ℕ, 0 < counts.sum → ∀ x ∈ countsROCchecked counts, x.isSome) := by
  have hsum : (List.replicate n (0 : ℕ)).sum = 0 := by simp
  have hmx : (((totalsOf (List.replicate n 0)).headD 0 : ℕ) : ℚ) = 0 := by
    rw [totalsOf_headD, hsum]; norm_num
  have hrw : countsROCchecked (List.replicate n 0)
      = (totalsOf (List.replicate n 0)).map
          (fun t : ℕ => divOpt (t : ℚ) ((totalsOf (List.replicate n 0)).headD 0 : ℚ)) := by
    simp only [countsROCchecked]
  have hall : ∀ x ∈ countsROCchecked (List.replicate n 0), x = none := by
    intro x hx
    rw [hrw] at hx
    obtain ⟨t, ht, rfl⟩ := List.mem_map.mp hx
    rw [hmx]
    simp [divOpt]
  refine ⟨?_, hall, ?_, ?_, ?_⟩
  · rw [hrw, List.length_map, totalsOf_length, List.length_replicate]
  · have hlen : 0 < (countsROCchecked (List.replicate n 0)).length := by
      rw [hrw, List.length_map, totalsOf_length, List.length_replicate]
      exact hn
    have hmem : (countsROCchecked (List.replicate n 0)).getD 0 none
        ∈ countsROCchecked (List.replicate n 0) := by
      rw [List.getD_eq_getElem _ _ hlen]
      exact List.getElem_mem hlen
    rw [hall _ hmem]
    simp
  · norm_num [countsAtDepth, countsLoop, slots]
  · intro counts hc x hx
    have hne : (totalsOf counts).head?.getD 0 ≠ 0 := by
      have h := totalsOf_headD counts
      simp only [List.headD_eq_head?_getD] at h
      omega
    rw [show countsROCchecked counts = (totalsOf counts).map
        (fun t : ℕ => divOpt (t : ℚ) ((totalsOf counts).headD 0 : ℚ)) from by
      simp only [countsROCchecked]] at hx
    obtain ⟨t, ht, rfl⟩ := List.mem_map.mp hx
    simp [divOpt, hne]

/-- C10 witness: the zero-histogram behaviour at n = 70 slots. -/
theorem countsROCchecked_allzero_witness :
    (countsROCchecked (List.replicate 70 0)).length = 70 ∧
    (countsROCchecked (List.replicate 70 0)).getD 0 none ≠ some 1 ∧
    countsAtDepth [] (List.replicate 70 0) = some (List.replicate 70 0) :=
  ⟨(countsROCchecked_allzero 70 (by norm_num)).1,
   (countsROCchecked_allzero 70 (by norm_num)).2.2.1,
   (countsROCchecked_allzero 70 (by norm_num)).2.2.2.1⟩

/-! ### C9: CountsAtDepth safety -/

theorem slotFor_nonneg_lt (d : ℚ) (h : 0 ≤ d) : 0 ≤ slotFor d ∧ slotFor d < 70 := by
  have hf : (0 : ℚ) ≤ d * (70 * slotsMid) + 1 / 2 := by
    have := mul_nonneg h (show (0 : ℚ) ≤ 70 * slotsMid by norm_num [slotsMid])
    linarith
  have hv : 0 ≤ ⌊d * (70 * slotsMid) + 1 / 2⌋ := Int.floor_nonneg.mpr hf
  simp only [slotFor, tint, truncQ, if_neg (not_lt.mpr hf)]
  by_cases hlt : ⌊d * (70 * slotsMid) + 1 / 2⌋ < 70
  · rw [if_pos hlt]; exact ⟨hv, hlt⟩
  · rw [if_neg hlt]; omega

theorem incrAt_some (counts : List ℕ) (i : ℤ) (h0 : 0 ≤ i) (hl : i.toNat < counts.length) :
    incrAt counts i = some (counts.set i.toNat (counts.getD i.toNat 0 + 1)) := by
  simp [incrAt, h0, hl]

theorem countsLoop_isSome (depths : List ℚ) : ∀ counts : List ℕ, counts.length = 70 →
    (∀ d ∈ depths, 0 ≤ d) → (countsLoop depths counts).isSome := by
  induction depths with
  | nil => intro counts _ _; simp [countsLoop]
  | cons d ds ih =>
    intro counts hlen hd
    have hb := slotFor_nonneg_lt d (hd d (List.mem_cons_self d ds))
    rw [countsLoop, incrAt_some counts (slotFor d) hb.1
      (by rw [hlen]; omega)]
    simp only [Option.bind]
    exact ih _ (by rw [List.length_set]; exact hlen)
      (fun x hx => hd x (List.mem_cons_of_mem d hx))

/-- C9: `CountsAtDepth` panics (here: `none`) whenever the counts slice does
not have length exactly 70, for every depth vector including the empty one;
with a length-70 counts slice and non-negative depths it never panics, every
computed slot lying in [0, 69]. -/
theorem countsAtDepth_safe (depths : List ℚ) (counts : List ℕ) :
    (counts.length ≠ 70 → countsAtDepth depths counts = none) ∧
    (counts.length = 70 → (∀ d ∈ depths, 0 ≤ d) → (countsAtDepth depths counts).isSome) := by
  constructor
  · intro h
    simp only [countsAtDepth]
    rw [if_pos (by simpa [slots] using h)]
  · intro h hd
    simp only [countsAtDepth]
    rw [if_neg (by simp [slots, h])]
    exact countsLoop_isSome depths counts h hd

/-- C9 witness: a length-0 counts slice panics even on a non-empty depth
vector, and the length-70 zero histogram accepts depth 1.0. -/
theorem countsAtDepth_safe_witness :
    countsAtDepth [1] [] = none ∧ (countsAtDepth [1] (List.replicate 70 0)).isSome :=
  ⟨(countsAtDepth_safe [1] []).1 (by simp),
   (countsAtDepth_safe [1] (List.replicate 70 0)).2 (by simp) (by norm_num)⟩

/-! ### C5: NormalizedDepth -/

/-- C5: for stop ≠ 0 the code computes exactly the claim-side function with
s = ⌊start/T⌋ and e = min(⌊stop/T⌋, len(ref) − 1) (empty when e ≤ s,
otherwise differences over M clamped at C_max); and stop = 0 means the whole
reference: with start = 0 the result has length len(ref) − 1. -/
theorem normalizedDepth_spec (M : ℚ) (ref : List ℤ) (start stop : ℕ) (h : stop ≠ 0) :
    normalizedDepth M ref start stop = normalizedSpecSide M ref start stop ∧
    (normalizedDepth M ref 0 0).length = ref.length - 1 := by
  constructor
  · have hei : (if stop = 0 ∨ ref.length ≤ stop / TileWidth
        then ref.length - 1 else stop / TileWidth)
        = min (stop / TileWidth) (ref.length - 1) := by
      by_cases hle : ref.length ≤ stop / TileWidth
      · rw [if_pos (Or.inr hle), min_eq_right (by omega)]
      · rw [if_neg (not_or.mpr ⟨h, hle⟩), min_eq_left (by omega)]
    have hfun : (fun i =>
        let v := ((ref.getD (start / TileWidth + i + 1) 0
          - ref.getD (start / TileWidth + i) 0 : ℤ) : ℚ) / M
        if MaxCN < v then MaxCN else v)
        = (fun i => min MaxCN (((ref.getD (start / TileWidth + i + 1) 0
            - ref.getD (start / TileWidth + i) 0 : ℤ) : ℚ) / M)) := by
      funext i
      simp only [min_def]
      split_ifs <;> first | rfl | linarith
    simp only [normalizedDepth, normalizedSpecSide, hei, hfun]
  · simp only [normalizedDepth, Nat.zero_div, true_or, if_true]
    by_cases hl : ref.length - 1 ≤ 0
    · rw [if_pos hl]
      simp only [List.length_nil]
      omega
    · rw [if_neg hl]
      simp [List.length_map, List.length_range]

/-- C5 witness: M = 1, ref = [0, 5, 10], start = 0, stop = 2·16384. -/
theorem normalizedDepth_spec_witness :
    normalizedDepth 1 [0, 5, 10] 0 32768 = normalizedSpecSide 1 [0, 5, 10] 0 32768 ∧
    (normalizedDepth 1 [0, 5, 10] 0 0).length = ([0, 5, 10] : List ℤ).length - 1 :=
  normalizedDepth_spec 1 [0, 5, 10] 0 32768 (by norm_num)

/-! ### C2: median tile size -/

/-- C2 counterexample: with tile vectors [[0,0,0,0,5],[0]] the collected
differences are [0,0,0,5]: only one non-zero difference exists (fewer than
three), yet `Index.init` succeeds with median 5 instead of failing; no
`InsufficientIndex` error exists in the code. -/
theorem medianSizePerTile_claim_counterexample :
    medianSizePerTile [[0, 0, 0, 0, 5], [0]] = some 5 ∧
    ((collectSizes [[0, 0, 0, 0, 5], [0]]).filter (fun s => decide (s ≠ 0))).length = 1 := by
  decide

theorem dropWhile_head_false {α : Type} (p : α → Bool) :
    ∀ (l : List α) (a : α) (t : List α), l.dropWhile p = a :: t → p a = false := by
  intro l
  induction l with
  | nil => intro a t h; simp [List.dropWhile] at h
  | cons x xs ih =>
    intro a t h
    rw [List.dropWhile_cons] at h
    by_cases hp : p x
    · rw [if_pos hp] at h; exact ih a t h
    · rw [if_neg hp] at h
      injection h with h1 h2
      subst h1
      exact Bool.eq_false_iff.mpr hp

theorem dropWhile_replicate_append {α : Type} (p : α → Bool) (a : α) (hp : p a = true) :
    ∀ (k : ℕ) (t : List α), (List.replicate k a ++ t).dropWhile p = t.dropWhile p := by
  intro k
  induction k with
  | zero => intro t; simp
  | succ k ih =>
    intro t
    rw [List.replicate_succ, List.cons_append, List.dropWhile_cons_of_pos hp]
    exact ih t

theorem sorted_mid_zero_take (S : List ℤ) (hs : S.Sorted (· ≤ ·))
    (hnn : ∀ x ∈ S, 0 ≤ x) (hlen : S.length ≠ 0)
    (hmid : S.getD (S.length / 2) 0 = 0) :
    S.take (S.length / 2) = List.replicate (S.length / 2) 0 := by
  have hk : S.length / 2 < S.length := by omega
  have hgE : S.get ⟨S.length / 2, hk⟩ = 0 := by
    rw [← List.getD_eq_get S 0 hk]; exact hmid
  have hmemdrop : S.get ⟨S.length / 2, hk⟩ ∈ S.drop (S.length / 2) := by
    rw [List.drop_eq_getElem_cons hk, List.get_eq_getElem]
    exact List.mem_cons_self _ _
  refine List.eq_replicate_iff.mpr ⟨?_, ?_⟩
  · rw [List.length_take]; omega
  · intro b hb
    have h1 : b ≤ S.get ⟨S.length / 2, hk⟩ :=
      List.Pairwise.rel_of_mem_take_of_mem_drop hs hb hmemdrop
    have h0 : 0 ≤ b := hnn b (List.mem_of_mem_take hb)
    omega

theorem sorted_cons_getD_pos (a : ℤ) (t : List ℤ) (hs : (a :: t).Sorted (· ≤ ·))
    (ha : 0 < a) : 0 < (a :: t).getD ((a :: t).length / 2) 0 := by
  have hk : (a :: t).length / 2 < (a :: t).length := by
    simp only [List.length_cons]; omega
  rw [List.getD_eq_get _ _ hk]
  have hmem : (a :: t).get ⟨(a :: t).length / 2, hk⟩ ∈ a :: t := List.get_mem _ _ _
  rcases List.mem_cons.mp hmem with h | h
  · rw [h]; exact ha
  · exact lt_of_lt_of_le ha ((List.sorted_cons.mp hs).1 _ h)

/-- C2 amended: the differences are collected over all references except the
last (which never contributes), references with fewer than two tile entries
contribute nothing, and when the median of the sorted differences is zero the
computation skips the leading zero-run of the sorted list and retakes the
median of the remainder; there is no `InsufficientIndex` error: with
non-negative differences the computation fails (panics, `none`) exactly when
every difference is zero, and otherwise returns a positive median even when
fewer than three non-zero differences exist. -/
theorem medianSizePerTile_spec (refs : List (List ℤ))
    (hnn : ∀ s ∈ collectSizes refs, 0 ≤ s) :
    (medianSizePerTile refs = none ↔ ∀ s ∈ collectSizes refs, s = 0) ∧
    (∀ m, medianSizePerTile refs = some m → 0 < m) ∧
    ((List.insertionSort (· ≤ ·) (collectSizes refs)).getD
        ((List.insertionSort (· ≤ ·) (collectSizes refs)).length / 2) 0 = 0 →
      medianSizePerTile refs =
        (if ((List.insertionSort (· ≤ ·) (collectSizes refs)).dropWhile
              (fun s => decide (s = 0))).length = 0 then none
         else some (((List.insertionSort (· ≤ ·) (collectSizes refs)).dropWhile
              (fun s => decide (s = 0))).getD
            (((List.insertionSort (· ≤ ·) (collectSizes refs)).dropWhile
              (fun s => decide (s = 0))).length / 2) 0))) ∧
    (∀ (r r' : List ℤ) (rs : List (List ℤ)),
      medianSizePerTile (rs ++ [r]) = medianSizePerTile (rs ++ [r'])) ∧
    (∀ (r : List ℤ) (rs : List (List ℤ)), r.length < 2 → rs ≠ [] →
      medianSizePerTile (r :: rs) = medianSizePerTile rs) := by
  have hcong : ∀ refs₁ refs₂ : List (List ℤ), collectSizes refs₁ = collectSizes refs₂ →
      medianSizePerTile refs₁ = medianSizePerTile refs₂ := by
    intro refs₁ refs₂ h
    simp only [medianSizePerTile, h]
  set L := collectSizes refs with hL
  set S := List.insertionSort (· ≤ ·) L with hS
  have hperm : S.Perm L := List.perm_insertionSort _ _
  have hsort : S.Sorted (· ≤ ·) := List.sorted_insertionSort _ _
  have hnnS : ∀ x ∈ S, 0 ≤ x := fun x hx => hnn x (hperm.subset hx)
  have case0 : S.length = 0 → medianSizePerTile refs = none := by
    intro h
    simp only [medianSizePerTile, ← hL, ← hS]
    rw [if_pos h]
  have caseNZ : S.length ≠ 0 → S.getD (S.length / 2) 0 ≠ 0 →
      medianSizePerTile refs = some (S.getD (S.length / 2) 0) := by
    intro h1 h2
    simp only [medianSizePerTile, ← hL, ← hS]
    rw [if_neg h1, if_neg h2]
  have caseZ : S.length ≠ 0 → S.getD (S.length / 2) 0 = 0 →
      medianSizePerTile refs =
        (if ((S.drop (S.length / 2)).dropWhile (fun s => decide (s = 0))).length = 0 then none
         else some (((S.drop (S.length / 2)).dropWhile (fun s => decide (s = 0))).getD
            (((S.drop (S.length / 2)).dropWhile (fun s => decide (s = 0))).length / 2) 0)) := by
    intro h1 h2
    simp only [medianSizePerTile, ← hL, ← hS]
    rw [if_neg h1, if_pos h2]
  have hrem : S.length ≠ 0 → S.getD (S.length / 2) 0 = 0 →
      (S.drop (S.length / 2)).dropWhile (fun s => decide (s = 0))
        = S.dropWhile (fun s => decide (s = 0)) := by
    intro h1 h2
    conv_rhs => rw [← List.take_append_drop (S.length / 2) S]
    rw [sorted_mid_zero_take S hsort hnnS h1 h2,
      dropWhile_replicate_append (fun s => decide (s = 0)) 0 (by simp)]
  have hcase : ∀ P : Prop, (S.length = 0 → P) →
      (S.length ≠ 0 → S.getD (S.length / 2) 0 ≠ 0 → P) →
      (S.length ≠ 0 → S.getD (S.length / 2) 0 = 0 → P) → P := by
    intro P hA hB hC
    by_cases h1 : S.length = 0
    · exact hA h1
    · by_cases h2 : S.getD (S.length / 2) 0 = 0
      · exact hC h1 h2
      · exact hB h1 h2
  have hmidmem : S.length ≠ 0 → S.getD (S.length / 2) 0 ∈ S := by
    intro h1
    have hk : S.length / 2 < S.length := by omega
    rw [List.getD_eq_getElem _ _ hk]
    exact List.getElem_mem hk
  have hLzero : (∀ s ∈ L, s = 0) ↔ (∀ x ∈ S, x = 0) := by
    constructor
    · intro h x hx; exact h x (hperm.subset hx)
    · intro h s hs; exact h s (hperm.symm.subset hs)
  refine ⟨?_, ?_, ?_, ?_, ?_⟩
  · -- none iff all differences zero
    refine hcase _ ?_ ?_ ?_
    · intro h1
      rw [case0 h1]
      have hSnil : S = [] := List.length_eq_zero.mp h1
      simp only [eq_self_iff_true, true_iff]
      rw [hLzero]
      intro x hx
      rw [hSnil] at hx
      simp at hx
    · intro h1 h2
      rw [caseNZ h1 h2]
      constructor
      · intro h; exact absurd h (by simp)
      · intro h
        exact absurd (h _ (hperm.subset (hmidmem h1))) h2
    · intro h1 h2
      rw [caseZ h1 h2, hrem h1 h2]
      by_cases h3 : (S.dropWhile (fun s => decide (s = 0))).length = 0
      · rw [if_pos h3]
        have hall : ∀ x ∈ S, x = 0 := by
          have := List.dropWhile_eq_nil_iff.mp (List.length_eq_zero.mp h3)
          intro x hx
          simpa using this x hx
        simp only [eq_self_iff_true, true_iff]
        exact hLzero.mpr hall
      · rw [if_neg h3]
        constructor
        · intro h; exact absurd h (by simp)
        · intro h
          obtain ⟨a, t, hat⟩ : ∃ a t, S.dropWhile (fun s => decide (s = 0)) = a :: t := by
            cases hd : S.dropWhile (fun s => decide (s = 0)) with
            | nil => rw [hd] at h3; simp at h3
            | cons a t => exact ⟨a, t, rfl⟩
          have ha : a ≠ 0 := by
            have := dropWhile_head_false _ S a t hat
            simpa using this
          have hamem : a ∈ S := (List.dropWhile_sublist _).subset (hat ▸ List.mem_cons_self a t)
          exact absurd (hLzero.mp h a hamem) ha
  · -- every produced median is positive
    intro m hm
    refine hcase _ ?_ ?_ ?_
    · intro h1; rw [case0 h1] at hm; exact absurd hm (by simp)
    · intro h1 h2
      rw [caseNZ h1 h2] at hm
      injection hm with hm
      have := hnnS _ (hmidmem h1)
      omega
    · intro h1 h2
      rw [caseZ h1 h2, hrem h1 h2] at hm
      by_cases h3 : (S.dropWhile (fun s => decide (s = 0))).length = 0
      · rw [if_pos h3] at hm; exact absurd hm (by simp)
      · rw [if_neg h3] at hm
        injection hm with hm
        obtain ⟨a, t, hat⟩ : ∃ a t, S.dropWhile (fun s => decide (s = 0)) = a :: t := by
          cases hd : S.dropWhile (fun s => decide (s = 0)) with
          | nil => rw [hd] at h3; simp at h3
          | cons a t => exact ⟨a, t, rfl⟩
        have ha : a ≠ 0 := by
          have := dropWhile_head_false _ S a t hat
          simpa using this
        have hamem : a ∈ S := (List.dropWhile_sublist _).subset (hat ▸ List.mem_cons_self a t)
        have hapos : 0 < a := lt_of_le_of_ne (hnnS a hamem) (Ne.symm ha)
        have hsortR : (a :: t).Sorted (· ≤ ·) :=
          hat ▸ List.Pairwise.sublist (List.dropWhile_sublist _) hsort
        have := sorted_cons_getD_pos a t hsortR hapos
        rw [hat] at hm
        omega
  · -- the zero-median retake, phrased on the fully sorted list
    intro h2
    refine hcase _ ?_ ?_ ?_
    · intro h1
      have hSnil : S = [] := List.length_eq_zero.mp h1
      rw [case0 h1, hSnil]
      simp
    · intro _ hne; exact absurd h2 hne
    · intro h1 _
      rw [caseZ h1 h2, hrem h1 h2]
  · -- the last reference never contributes
    intro r r' rs
    apply hcong
    simp [collectSizes, List.dropLast_concat]
  · -- a reference with fewer than two tile entries contributes nothing
    intro r rs hr hrs
    apply hcong
    rw [collectSizes, collectSizes, List.dropLast_cons_of_ne_nil hrs]
    simp [diffsOf, hr]

/-- C2 witness: last-reference irrelevance and short-reference irrelevance at
concrete tile vectors. -/
theorem medianSizePerTile_spec_witness :
    medianSizePerTile ([[0, 2, 4]] ++ [[9]]) = medianSizePerTile ([[0, 2, 4]] ++ [[1, 100]]) ∧
    medianSizePerTile ([5] :: [[0, 2, 4], [9]]) = medianSizePerTile [[0, 2, 4], [9]] :=
  ⟨(medianSizePerTile_spec [[0, 2, 4], [9]] (by decide)).2.2.2.1 [9] [1, 100] [[0, 2, 4]],
   (medianSizePerTile_spec [[0, 2, 4], [9]] (by decide)).2.2.2.2 [5] [[0, 2, 4], [9]]
     (by decide) (by decide)⟩
